import Mathlib

/-!
Verification development for the layered agentic pipeline
(`multi-agent.py`): a four-stage question-answering pipeline
(Rephrase, Retrieve, Answer, Summarize) over a fixed registry of
information-source adapters, with a heuristic tool selector and a
result ranker.

Strings are modelled as `List Char`; Python machinery is embedded
explicitly: the two `re` patterns used by the tool selector are
hand-compiled to deterministic matchers, `difflib.SequenceMatcher.ratio`
is embedded as the normalized total size of the Ratcliff/Obershelp
matching blocks, Python's stable `sorted` as stable insertion sort, and
`dict` as an insertion-ordered association list.  The language model
and `eval`-based suggestion parsing are external effects and are
modelled by an outcome oracle.
-/

/-- Convert a string literal to the `List Char` representation used
throughout. -/
def str (s : String) : List Char := s.toList

/-- Python `str.lower()` (ASCII-relevant part). -/
def pyLower (l : List Char) : List Char := l.map Char.toLower

/-- Python whitespace characters recognized by `\s` / `str.strip` (ASCII). -/
def pyIsSpace (c : Char) : Bool :=
  c = ' ' ∨ c = '\t' ∨ c = '\n' ∨ c = '\r' ∨ c = '\x0b' ∨ c = '\x0c'

/-- Python regex `\w` word characters (ASCII-relevant part). -/
def isWordChar (c : Char) : Bool := c.isAlphanum || c = '_'

/-- Length of the leading whitespace run (greedy `\s*` / `\s+`). -/
def countWs (l : List Char) : Nat := (l.takeWhile pyIsSpace).length

/-- Length of the leading word-character run (greedy `\w+`). -/
def countWord (l : List Char) : Nat := (l.takeWhile isWordChar).length

/-- Python `str.strip()`: drop leading and trailing whitespace. -/
def pyStrip (l : List Char) : List Char :=
  ((((l.dropWhile pyIsSpace).reverse).dropWhile pyIsSpace)).reverse

/-- The apostrophe character (codepoint 39), used inside adapter reply texts. -/
def apos : List Char := [Char.ofNat 39]

/-!
## difflib.SequenceMatcher

`rank_results` computes `SequenceMatcher(None, a.lower(), b.lower()).ratio()`.
`ratio` is `2*M / (len(a)+len(b))` where `M` is the total size of the
Ratcliff/Obershelp matching blocks: recursively take the longest common
contiguous block (earliest in `a`, then earliest in `b`, per the difflib
documentation for junk-free inputs; the inputs relevant here are far below
the 200-character autojunk threshold), then recurse on the pieces to its
left and to its right.  Real arithmetic is IEEE floating point in Python;
for the string lengths reachable here (far below 2^50) the float result
of `ratio()*match_boost` truncates to the same integer as the exact
rational, so the embedding uses `ℚ`.
-/

/-- Length of the longest common prefix of two strings. -/
def commonLen : List Char → List Char → Nat
  | a :: as, b :: bs => if a = b then commonLen as bs + 1 else 0
  | _, _ => 0

/-- For a fixed start `i` in `a`, the best pair `(j, k)`: the first start
`j` in `b` attaining the maximal common-extension length `k`. -/
def bestForI (a b : List Char) (i : Nat) : Nat × Nat :=
  (List.range b.length).foldl
    (fun best j =>
      let k := commonLen (a.drop i) (b.drop j)
      if best.2 < k then (j, k) else best)
    (0, 0)

/-- Longest matching block `(i, j, k)` of two strings: maximal `k`, ties
broken by smallest `i`, then smallest `j` (difflib's tie-break for
junk-free input).  `(0, 0, 0)` when there is no common character. -/
def findLongestMatch (a b : List Char) : Nat × Nat × Nat :=
  (List.range a.length).foldl
    (fun best i =>
      let jk := bestForI a b i
      if best.2.2 < jk.2 then (i, jk.1, jk.2) else best)
    (0, 0, 0)

/-- Total size of all Ratcliff/Obershelp matching blocks; structural on a
fuel argument so that it evaluates by kernel reduction.  Each recursive
call strictly shrinks the first string, so fuel `a.length + 1` (as used by
`matchTotal`) never runs out. -/
def matchTotalF : Nat → List Char → List Char → Nat
  | 0, _, _ => 0
  | fuel+1, a, b =>
    let m := findLongestMatch a b
    if m.2.2 = 0 then 0
    else
      matchTotalF fuel (a.take m.1) (b.take m.2.1) + m.2.2 +
        matchTotalF fuel (a.drop (m.1 + m.2.2)) (b.drop (m.2.1 + m.2.2))

/-- Total size of all matching blocks of two strings. -/
def matchTotal (a b : List Char) : Nat := matchTotalF (a.length + 1) a b

/-- The `SequenceMatcher.ratio()` value: `2*M/T` for `T` the sum of the lengths,
and `1` when both strings are empty (difflib's `_calculate_ratio`). -/
def ratioQ (a b : List Char) : ℚ :=
  if a.length + b.length = 0 then 1
  else 2 * (matchTotal a b : ℚ) / ((a.length : ℚ) + (b.length : ℚ))

/-- The `similarity(a, b)` helper inside `rank_results`:
`SequenceMatcher(None, a.lower(), b.lower()).ratio()`. -/
def similarity (a b : List Char) : ℚ := ratioQ (pyLower a) (pyLower b)

/-- Python `int()` applied to a (non-integral) number: truncation toward
zero. -/
def pyInt (x : ℚ) : ℤ := if 0 ≤ x then ⌊x⌋ else ⌈x⌉

/-!
## Result ranker (`rank_results`)
-/

/-- The value added to the base score of `1`: the full `match_boost` when
the lowercased query occurs literally in the lowercased result, otherwise
`int(similarity(query, result) * match_boost)`. -/
def boostTerm (query result : List Char) (match_boost : ℤ) : ℤ :=
  if pyLower query <:+: pyLower result then match_boost
  else pyInt (similarity query result * (match_boost : ℚ))

/-- Score of one result: base `1`, plus the boost term, minus
`error_penalty` when the result text contains the word "error"
case-insensitively. -/
def toolScore (query result : List Char) (error_penalty match_boost : ℤ) : ℤ :=
  (1 + boostTerm query result match_boost) -
    (if str "error" <:+: pyLower result then error_penalty else 0)

/-- Stable insertion step for Python's `sorted(..., reverse=True)`:
a later element moves in front of an earlier one only when its key is
strictly greater. -/
def insertDescBy (key : α → ℤ) (x : α) : List α → List α
  | [] => [x]
  | y :: ys => if key y ≤ key x then x :: y :: ys else y :: insertDescBy key x ys

/-- Python's stable `sorted(l, key=key, reverse=True)` (descending). -/
def sortDescBy (key : α → ℤ) : List α → List α
  | [] => []
  | x :: xs => insertDescBy key x (sortDescBy key xs)

/-- Stable insertion step for Python's ascending `sorted`. -/
def insertAscBy (key : α → ℤ) (x : α) : List α → List α
  | [] => [x]
  | y :: ys => if key x ≤ key y then x :: y :: ys else y :: insertAscBy key x ys

/-- Python's stable `sorted(l, key=key)` (ascending). -/
def sortAscBy (key : α → ℤ) : List α → List α
  | [] => []
  | x :: xs => insertAscBy key x (sortAscBy key xs)

/-- The ranker `rank_results(query, tool_results, error_penalty=1, match_boost=2)`:
score every entry of the result mapping, then sort descending by score
(stable, so ties keep the mapping's iteration order). -/
def rank_results (query : List Char) (tool_results : List (List Char × List Char))
    (error_penalty match_boost : ℤ) : List (List Char × ℤ) :=
  sortDescBy (fun e => e.2)
    (tool_results.map (fun e => (e.1, toolScore query e.2 error_penalty match_boost)))

/-!
## Adapters and registry

Each `@tool` is modelled as a plain named function (its Python
`__name__` plus a callable that may raise, i.e. return `.error`).  The
bodies below are the literal tool bodies from the source; none of them
raises.
-/

/-- An adapter: the Python function's `__name__` and its body, which
returns a reply string or raises an exception. -/
structure Adapter where
  fname : List Char
  run : List Char → Except (List Char) (List Char)

/-- The wrapper `safe_tool_call(tool_func, query)`: call the adapter; on any raised
exception return the synthetic text `"Error while calling <__name__>."`
instead of propagating (the log emission is not modelled). -/
def safe_tool_call (tool_func : Adapter) (query : List Char) : List Char :=
  match tool_func.run query with
  | .ok r => r
  | .error _ => str "Error while calling " ++ tool_func.fname ++ str "."

/-- The `search_confluence` tool. -/
def search_confluence : Adapter :=
  ⟨str "search_confluence", fun query =>
    .ok (if str "pipeline" <:+: pyLower query then
      str "Confluence: Found CI/CD pipeline docs: https://confluence.mycorp.local/pages/viewpage.action?pageId=123456"
    else str "Confluence: No docs found for " ++ apos ++ query ++ apos)⟩

/-- The `search_bitbucket` tool. -/
def search_bitbucket : Adapter :=
  ⟨str "search_bitbucket", fun query =>
    .ok (str "Bitbucket: Found matching repo `devops-scripts` with file `deploy.yml` for query " ++
      apos ++ query ++ apos ++ str ".")⟩

/-- The `query_postgres` tool. -/
def query_postgres : Adapter :=
  ⟨str "query_postgres", fun query =>
    .ok (if str "orders" <:+: pyLower query then
      str "PostgreSQL: SELECT * FROM orders WHERE status = " ++ apos ++ str "pending" ++ apos ++
        str "; → 13 rows"
    else str "PostgreSQL: No matching rows for " ++ apos ++ query ++ apos)⟩

/-- The `query_graphql` tool. -/
def query_graphql : Adapter :=
  ⟨str "query_graphql", fun query =>
    .ok (if str "user" <:+: pyLower query then
      str "GraphQL: Queried `getUser(id)` → returned user profile object"
    else str "GraphQL: No matching query for " ++ apos ++ query ++ apos)⟩

/-- The `search_field_mapping` tool. -/
def search_field_mapping : Adapter :=
  ⟨str "search_field_mapping", fun query =>
    .ok (if str "user_id" <:+: pyLower query then
      str "Field Mapping: Found field mapping for `user_id` to `user_profile.id`"
    else if str "order_status" <:+: pyLower query then
      str "Field Mapping: Found field mapping for `order_status` to `order_status_code`"
    else str "Field Mapping: No mappings found for " ++ apos ++ query ++ apos)⟩

/-- The module-level `tools` registry, in insertion order. -/
def tools : List (List Char × Adapter) :=
  [(str "confluence", search_confluence),
   (str "bitbucket", search_bitbucket),
   (str "postgresql", query_postgres),
   (str "graphql", query_graphql),
   (str "field mapping", search_field_mapping)]

/-- The registered adapter names of a registry (`tools.keys()`). -/
def keysOf (reg : List (List Char × Adapter)) : List (List Char) := reg.map Prod.fst

/-!
## Tool selection (`retrieve`, lines 130-148)

The two `re` patterns are hand-compiled.  The scoped-directive pattern
`search\s+(only\s+)?in\s+((?:\w+(?:\s+and\s+)?)+)` is deterministic:
every greedy run (`\s+`, `\w+`) is followed by a character class disjoint
from it, so no backtracking into a run can occur, and the optional
`only\s+` group commits exactly when it matches (a question on which it
matched cannot also match the mandatory `in` at the same spot).
-/

/-- Length of the group-2 capture `(?:\w+(?:\s+and\s+)?)+` starting at
`t` (which the caller has checked begins with a word character): greedily
take a word, then, when an `\s+and\s+` separator follows, consume it and
continue when another word follows.  Structural on fuel; one unit of fuel
consumes at least one character, so fuel `t.length` (as passed by
`matchScopedAt`) never runs out. -/
def grabLen : Nat → List Char → Nat
  | 0, _ => 0
  | fuel+1, t =>
    let w := countWord t
    let r := t.drop w
    let s1 := countWs r
    if 1 ≤ s1 ∧ str "and" <+: r.drop s1 ∧ 1 ≤ countWs (r.drop (s1+3)) then
      let s2 := countWs (r.drop (s1+3))
      let sep := s1 + 3 + s2
      if 1 ≤ countWord (r.drop sep) then w + sep + grabLen fuel (r.drop sep)
      else w + sep
    else w

/-- Try the scoped-directive pattern anchored at the start of `t`;
return the group-2 capture on success. -/
def matchScopedAt (t : List Char) : Option (List Char) :=
  if str "search" <+: t then
    let t1 := t.drop 6
    if 1 ≤ countWs t1 then
      let t2 := t1.drop (countWs t1)
      let t3 := if str "only" <+: t2 ∧ 1 ≤ countWs (t2.drop 4)
        then (t2.drop 4).drop (countWs (t2.drop 4)) else t2
      if str "in" <+: t3 ∧ 1 ≤ countWs (t3.drop 2) then
        let t4 := (t3.drop 2).drop (countWs (t3.drop 2))
        if 1 ≤ countWord t4 then some (t4.take (grabLen t4.length t4)) else none
      else none
    else none
  else none

/-- Model of `re.search` for the scoped-directive pattern: leftmost match wins. -/
def matchScoped : List Char → Option (List Char)
  | [] => none
  | c :: rest =>
    match matchScopedAt (c :: rest) with
    | some cap => some cap
    | none => matchScoped rest

/-- Length of a separator match of `\s+and\s+|\s*,\s*` anchored at `t`
(first alternative preferred, each greedy run maximal). -/
def sepMatchLen (t : List Char) : Option Nat :=
  let s1 := countWs t
  if 1 ≤ s1 ∧ str "and" <+: t.drop s1 ∧ 1 ≤ countWs (t.drop (s1+3)) then
    some (s1 + 3 + countWs (t.drop (s1+3)))
  else if str "," <+: t.drop s1 then
    some (s1 + 1 + countWs (t.drop (s1+1)))
  else none

/-- Scanner for `re.split(r'\s+and\s+|\s*,\s*', cap)`.  Structural on
fuel; every step consumes at least one character, so fuel `t.length`
(as passed by `pySplitSep`) never runs out. -/
def pySplitGo : Nat → List Char → List (List Char)
  | _, [] => [[]]
  | 0, t => [t]
  | fuel+1, c :: rest =>
    match sepMatchLen (c :: rest) with
    | some n => [] :: pySplitGo fuel ((c :: rest).drop n)
    | none =>
      match pySplitGo fuel rest with
      | p :: ps => (c :: p) :: ps
      | [] => [[c]]

/-- Model of `re.split(r'\s+and\s+|\s*,\s*', t)`. -/
def pySplitSep (t : List Char) : List (List Char) := pySplitGo t.length t

/-- Scanner for `re.findall("(k1|k2|...)", text)` with an alternation of
literal registry names: at each position try the names in registry order;
on a match emit it and continue after it, otherwise advance one
character.  Structural on fuel; every step consumes at least one
character (all registry names are non-empty), so fuel `text.length`
never runs out. -/
def findallGo (keys : List (List Char)) : Nat → List Char → List (List Char)
  | _, [] => []
  | 0, _ => []
  | fuel+1, c :: rest =>
    match keys.find? (fun k => k.isPrefixOf (c :: rest)) with
    | some k => k :: findallGo keys fuel ((c :: rest).drop k.length)
    | none => findallGo keys fuel rest

/-- Model of `re.findall` of the registry-name alternation over `text`. -/
def findallNames (keys : List (List Char)) (text : List Char) : List (List Char) :=
  findallGo keys text.length text

/-- The tool-selection logic of `retrieve` on the lowercased query.
`suggested` is the outcome of `eval(llm_base.invoke(...))` on the
LLM-assisted path: `none` when the call or the `eval` raises, `some l`
when it produces a Python list `l`.  `list(set(...))` has unspecified
iteration order in Python; it is modelled by `List.dedup` (no claim
depends on the order of that branch's output). -/
def selectTools (reg : List (List Char × Adapter)) (lowered_query : List Char)
    (suggested : Option (List (List Char))) : List (List Char) :=
  let keys := keysOf reg
  if str "search in all" <:+: lowered_query then keys
  else
    match matchScoped lowered_query with
    | some cap =>
      let mentioned := pySplitSep cap
      (mentioned.map pyStrip).filter (fun t => decide (t ∈ keys))
    | none =>
      let found := findallNames keys lowered_query
      let toolset := if found.isEmpty then [] else (found.map pyLower).dedup
      if toolset.isEmpty then
        match suggested with
        | some names => names.filter (fun t => decide (t ∈ keys))
        | none => keys
      else toolset

/-!
## Result collection (`retrieve`, lines 150-156)
-/

/-- One step of building a Python `dict` from a pair list: a repeated key
overwrites the stored value in place, a new key is appended. -/
def dictInsert (d : List (List Char × List Char)) (kv : List Char × List Char) :
    List (List Char × List Char) :=
  if kv.1 ∈ d.map Prod.fst then
    d.map (fun e => if e.1 = kv.1 then (e.1, kv.2) else e)
  else d ++ [kv]

/-- Python `dict(pairs)`: first-insertion key order, last value wins. -/
def pyDict (l : List (List Char × List Char)) : List (List Char × List Char) :=
  l.foldl dictInsert []

/-- Python `d[k]` on an insertion-ordered dict (`dflt` is never reached
on the paths used here, where the key is always present). -/
def lookupD (d : List (List Char × List Char)) (k dflt : List Char) : List Char :=
  match d.find? (fun e => decide (e.1 = k)) with
  | some e => e.2
  | none => dflt

/-- Registry lookup `tools[name]`. -/
def findAdapter (reg : List (List Char × Adapter)) (name : List Char) : Option Adapter :=
  (reg.find? (fun e => decide (e.1 = name))).map Prod.snd

/-- Model of `async_safe_tool_call(tool_name, query)`: look the adapter up and call
it through the safe wrapper.  Selection only ever produces registered
names, so the `none` branch is unreachable. -/
def callByName (reg : List (List Char × Adapter)) (name query : List Char) : List Char :=
  match findAdapter reg name with
  | some a => safe_tool_call a query
  | none => []

/-- The `tool_results` mapping of `retrieve`: fan out to every selected
adapter (the `asyncio.gather` order is the toolset order) and collect the
name-to-result dict. -/
def toolResultsOf (reg : List (List Char × Adapter)) (query : List Char)
    (suggested : Option (List (List Char))) : List (List Char × List Char) :=
  pyDict ((selectTools reg (pyLower query) suggested).map (fun t => (t, callByName reg t query)))

/-- The `sorted_results` mapping stored by `retrieve` on its success
path: rank, re-sort ascending by negated score (a second stable sort),
and rebuild the dict in that order from `tool_results`. -/
def retrieveSuccess (reg : List (List Char × Adapter)) (query : List Char)
    (suggested : Option (List (List Char))) : List (List Char × List Char) :=
  let tool_results := toolResultsOf reg query suggested
  let ranked := rank_results query tool_results 1 2
  (sortAscBy (fun e => -e.2) ranked).map (fun e => (e.1, lookupD tool_results e.1 []))

/-!
## Pipeline (`AgentState`, the four nodes, and the compiled graph)

The language model and the `eval` of its suggestion reply are external
effects; an `LLMOracle` records their outcomes for one request (`none`
models a raised exception).  `retrieveFails` models the `except` arm of
`retrieve`'s outer `try` ("any unexpected failure in this stage as a
whole").
-/

/-- The shared state threaded through the four stages. -/
structure AgentState where
  question : List Char
  rephrased : Option (List Char) := none
  retrieved : Option (List (List Char × List Char)) := none
  answer : Option (List Char) := none
  summary : Option (List Char) := none

/-- Outcomes of the external calls made during one `process` run. -/
structure LLMOracle where
  rephraseOut : Option (List Char)
  suggestOut : Option (List (List Char))
  answerOut : Option (List Char)
  retrieveFails : Bool

/-- The `Rephrase` node: LLM result, or the fixed placeholder on error. -/
def rephrase (o : LLMOracle) (state : AgentState) : AgentState :=
  match o.rephraseOut with
  | some r => { state with rephrased := some r }
  | none => { state with rephrased := some (str "Unable to rephrase the question.") }

/-- The `Retrieve` node: the ranked result mapping, or the single-entry
error mapping when the stage as a whole fails. -/
def retrieve (reg : List (List Char × Adapter)) (o : LLMOracle) (state : AgentState) :
    AgentState :=
  if o.retrieveFails then
    { state with retrieved := some [(str "error", str "Retrieval failed.")] }
  else
    { state with retrieved := some (retrieveSuccess reg (state.rephrased.getD []) o.suggestOut) }

/-- The `Answer` node: LLM result, or the fixed placeholder on error. -/
def generate_answer (o : LLMOracle) (state : AgentState) : AgentState :=
  match o.answerOut with
  | some r => { state with answer := some r }
  | none => { state with answer := some (str "Unable to generate an answer.") }

/-- The `summarize_text` tool: label plus a 150-character preview. -/
def summarize_text (text : List Char) : List Char :=
  str "Summary: " ++ text.take 150 ++ str "..."

/-- The `Summarize` node: a pure truncation of the answer; the fixed
placeholder is produced when the lookup of `state["answer"]` raises. -/
def summarize (state : AgentState) : AgentState :=
  match state.answer with
  | some a => { state with summary := some (summarize_text a) }
  | none => { state with summary := some (str "Unable to summarize the answer.") }

/-- The compiled graph run by `process(question)`:
Rephrase, then Retrieve, then Answer, then Summarize. -/
def process (reg : List (List Char × Adapter)) (o : LLMOracle) (question : List Char) :
    AgentState :=
  summarize (generate_answer o (retrieve reg o (rephrase o { question := question })))

/-!
## Auxiliary definitions for the statements
-/

/-- Modelled from the spec's scoring sentence (the refinement target for
the ranker): base 1, plus 2 on a literal substring match and
`floor(similarity * 2)` otherwise, minus 1 when the result contains the
word "error" case-insensitively. -/
def specScore (query result : List Char) : ℤ :=
  1 + (if pyLower query <:+: pyLower result then 2 else ⌊similarity query result * 2⌋) -
    (if str "error" <:+: pyLower result then 1 else 0)

/-- Join a list of names with the separator " and ", building the body of
a scoped search directive. -/
def joinAnd : List (List Char) → List Char
  | [] => []
  | [n] => n
  | n :: m :: rest => n ++ str " and " ++ joinAnd (m :: rest)

/-- An always-raising adapter (the spec's "stubbed to always fail"
scenario), used to exercise the error path of the safe wrapper. -/
def failing_adapter : Adapter :=
  ⟨str "failing_adapter", fun _ => .error (str "boom")⟩

/-!
## Generic helper lemmas
-/

theorem foldl_preserve {α β : Type} (P : β → Prop) {f : β → α → β} {l : List α} :
    ∀ {init : β}, P init → (∀ acc x, x ∈ l → P acc → P (f acc x)) →
      P (l.foldl f init) := by
  induction l with
  | nil => intro init h0 _; exact h0
  | cons x xs ih =>
    intro init h0 hstep
    exact ih (hstep init x (by simp) h0)
      (fun acc y hy hacc => hstep acc y (by simp [hy]) hacc)

theorem takeWhile_eq_self_of_all {p : Char → Bool} :
    ∀ {l : List Char}, (∀ c ∈ l, p c = true) → l.takeWhile p = l
  | [], _ => rfl
  | c :: cs, h => by
    rw [List.takeWhile_cons_of_pos (h c (List.mem_cons_self c cs))]
    exact congrArg (c :: ·) (takeWhile_eq_self_of_all fun d hd => h d (List.mem_cons_of_mem c hd))

/-!
## Stable sort lemmas
-/

theorem insertDescBy_perm {α : Type} (key : α → ℤ) (x : α) :
    ∀ l : List α, (insertDescBy key x l).Perm (x :: l)
  | [] => List.Perm.refl _
  | y :: ys => by
    unfold insertDescBy
    by_cases h : key y ≤ key x
    · rw [if_pos h]
    · rw [if_neg h]
      exact ((insertDescBy_perm key x ys).cons y).trans (List.Perm.swap x y ys)

theorem sortDescBy_perm {α : Type} (key : α → ℤ) :
    ∀ l : List α, (sortDescBy key l).Perm l
  | [] => List.Perm.refl _
  | x :: xs =>
    (insertDescBy_perm key x (sortDescBy key xs)).trans ((sortDescBy_perm key xs).cons x)

theorem mem_insertDescBy {α : Type} {key : α → ℤ} {x z : α} {l : List α}
    (h : z ∈ insertDescBy key x l) : z = x ∨ z ∈ l := by
  have := (insertDescBy_perm key x l).mem_iff.mp h
  simpa using this

theorem insertDescBy_pairwise {α : Type} {key : α → ℤ} {x : α} :
    ∀ {l : List α}, l.Pairwise (fun u v => key v ≤ key u) →
      (insertDescBy key x l).Pairwise (fun u v => key v ≤ key u)
  | [], _ => List.pairwise_singleton _ _
  | y :: ys, h => by
    unfold insertDescBy
    rcases List.pairwise_cons.mp h with ⟨hy, hys⟩
    by_cases hxy : key y ≤ key x
    · rw [if_pos hxy]
      refine List.pairwise_cons.mpr ⟨?_, h⟩
      intro z hz
      rcases List.mem_cons.mp hz with rfl | hz
      · exact hxy
      · exact le_trans (hy z hz) hxy
    · rw [if_neg hxy]
      refine List.pairwise_cons.mpr ⟨?_, insertDescBy_pairwise hys⟩
      intro z hz
      rcases mem_insertDescBy hz with hz | hz
      · exact hz ▸ le_of_lt (lt_of_not_le hxy)
      · exact hy z hz

theorem sortDescBy_pairwise {α : Type} (key : α → ℤ) :
    ∀ l : List α, (sortDescBy key l).Pairwise (fun u v => key v ≤ key u)
  | [] => List.Pairwise.nil
  | _ :: xs => insertDescBy_pairwise (sortDescBy_pairwise key xs)

theorem sublist_insertDescBy {α : Type} (key : α → ℤ) (x : α) :
    ∀ l : List α, l.Sublist (insertDescBy key x l)
  | [] => List.nil_sublist _
  | y :: ys => by
    unfold insertDescBy
    by_cases h : key y ≤ key x
    · rw [if_pos h]; exact List.sublist_cons_self x (y :: ys)
    · rw [if_neg h]
      exact (sublist_insertDescBy key x ys).cons₂ y

theorem insertDescBy_stable {α : Type} {key : α → ℤ} {a b : α} (hab : key b ≤ key a)
    {l : List α} (h : List.Sublist [b] l) : List.Sublist [a, b] (insertDescBy key a l) := by
  induction l with
  | nil => exact absurd (List.singleton_sublist.mp h) (List.not_mem_nil b)
  | cons y ys ih =>
    unfold insertDescBy
    by_cases hy : key y ≤ key a
    · rw [if_pos hy]
      exact List.Sublist.cons₂ a h
    · rw [if_neg hy]
      have hb : b ∈ ys := by
        rcases List.mem_cons.mp (List.singleton_sublist.mp h) with rfl | hb
        · exact absurd hab hy
        · exact hb
      exact (ih (List.singleton_sublist.mpr hb)).cons y

theorem sortDescBy_stable {α : Type} {key : α → ℤ} {a b : α} (hab : key b ≤ key a) :
    ∀ {l : List α}, List.Sublist [a, b] l → List.Sublist [a, b] (sortDescBy key l) := by
  intro l
  induction l with
  | nil => intro h; exact absurd h (by simp)
  | cons x xs ih =>
    intro h
    cases h with
    | cons _ h =>
      exact (ih h).trans (sublist_insertDescBy key x (sortDescBy key xs))
    | cons₂ _ h =>
      have hb : b ∈ sortDescBy key xs :=
        (sortDescBy_perm key xs).mem_iff.mpr (List.singleton_sublist.mp h)
      exact insertDescBy_stable hab (List.singleton_sublist.mpr hb)

theorem insertAscBy_neg_eq {α : Type} (key : α → ℤ) (x : α) :
    ∀ l : List α, insertAscBy (fun z => -(key z)) x l = insertDescBy key x l
  | [] => rfl
  | y :: ys => by
    unfold insertAscBy insertDescBy
    rw [insertAscBy_neg_eq key x ys]
    simp only [neg_le_neg_iff]

theorem sortAscBy_neg_eq {α : Type} (key : α → ℤ) :
    ∀ l : List α, sortAscBy (fun z => -(key z)) l = sortDescBy key l
  | [] => rfl
  | x :: xs => by
    unfold sortAscBy sortDescBy
    rw [sortAscBy_neg_eq key xs, insertAscBy_neg_eq]

theorem sortAscBy_neg_snd (l : List (List Char × ℤ)) :
    sortAscBy (fun e => -e.2) l = sortDescBy (fun e => e.2) l :=
  sortAscBy_neg_eq (fun e => e.2) l

theorem insertDescBy_of_le {α : Type} {key : α → ℤ} {x : α} {l : List α}
    (h : ∀ z ∈ l, key z ≤ key x) : insertDescBy key x l = x :: l := by
  cases l with
  | nil => rfl
  | cons y ys =>
    unfold insertDescBy
    rw [if_pos (h y (List.mem_cons_self y ys))]

theorem sortDescBy_of_pairwise {α : Type} {key : α → ℤ} :
    ∀ {l : List α}, l.Pairwise (fun u v => key v ≤ key u) → sortDescBy key l = l
  | [], _ => rfl
  | x :: xs, h => by
    rcases List.pairwise_cons.mp h with ⟨hx, hxs⟩
    unfold sortDescBy
    rw [sortDescBy_of_pairwise hxs, insertDescBy_of_le hx]

/-!
## Python dict and lookup lemmas
-/

theorem dictInsert_fst_update (d : List (List Char × List Char)) (kv : List Char × List Char) :
    (d.map (fun e => if e.1 = kv.1 then (e.1, kv.2) else e)).map Prod.fst = d.map Prod.fst := by
  rw [List.map_map]
  refine List.map_congr_left ?_
  intro e _
  by_cases he : e.1 = kv.1 <;> simp [Function.comp, he]

theorem dictInsert_keys_nodup {d : List (List Char × List Char)} {kv : List Char × List Char}
    (h : (d.map Prod.fst).Nodup) : ((dictInsert d kv).map Prod.fst).Nodup := by
  unfold dictInsert
  by_cases hm : kv.1 ∈ d.map Prod.fst
  · rw [if_pos hm, dictInsert_fst_update]
    exact h
  · rw [if_neg hm, List.map_append]
    simp only [List.map_cons, List.map_nil]
    rw [List.nodup_append]
    exact ⟨h, List.nodup_singleton _, by simpa using fun hk => hm hk⟩

theorem dictInsert_mem_keys {d : List (List Char × List Char)} {kv : List Char × List Char}
    {k : List Char} :
    k ∈ (dictInsert d kv).map Prod.fst ↔ k ∈ d.map Prod.fst ∨ k = kv.1 := by
  unfold dictInsert
  by_cases hm : kv.1 ∈ d.map Prod.fst
  · rw [if_pos hm, dictInsert_fst_update]
    constructor
    · exact Or.inl
    · rintro (h | rfl)
      · exact h
      · exact hm
  · rw [if_neg hm, List.map_append]
    simp

theorem dictInsert_val {d : List (List Char × List Char)} {kv : List Char × List Char}
    {f : List Char → List Char} (hd : ∀ p ∈ d, p.2 = f p.1) (hkv : kv.2 = f kv.1) :
    ∀ p ∈ dictInsert d kv, p.2 = f p.1 := by
  intro p hp
  unfold dictInsert at hp
  by_cases hm : kv.1 ∈ d.map Prod.fst
  · rw [if_pos hm] at hp
    rcases List.mem_map.mp hp with ⟨e, he, hpe⟩
    by_cases heq : e.1 = kv.1
    · rw [if_pos heq] at hpe
      rw [← hpe]
      simpa [heq] using hkv
    · rw [if_neg heq] at hpe
      exact hpe ▸ hd e he
  · rw [if_neg hm] at hp
    rcases List.mem_append.mp hp with hp | hp
    · exact hd p hp
    · rw [List.mem_singleton.mp hp]
      exact hkv

theorem pyDict_nodup_val (f : List Char → List Char) {l : List (List Char × List Char)}
    (hl : ∀ p ∈ l, p.2 = f p.1) :
    ((pyDict l).map Prod.fst).Nodup ∧ ∀ p ∈ pyDict l, p.2 = f p.1 := by
  unfold pyDict
  refine foldl_preserve
    (fun (acc : List (List Char × List Char)) => (acc.map Prod.fst).Nodup ∧ ∀ p ∈ acc, p.2 = f p.1)
    ⟨List.nodup_nil, by simp⟩ ?_
  rintro acc x hx ⟨h1, h2⟩
  exact ⟨dictInsert_keys_nodup h1, dictInsert_val h2 (hl x hx)⟩

theorem pyDict_keys_nodup (l : List (List Char × List Char)) :
    ((pyDict l).map Prod.fst).Nodup := by
  unfold pyDict
  refine foldl_preserve (fun (acc : List (List Char × List Char)) => (acc.map Prod.fst).Nodup) List.nodup_nil ?_
  intro acc x _ h
  exact dictInsert_keys_nodup h

theorem foldl_dictInsert_mem_keys (k : List Char) :
    ∀ (l acc : List (List Char × List Char)),
      (k ∈ (l.foldl dictInsert acc).map Prod.fst ↔ k ∈ acc.map Prod.fst ∨ k ∈ l.map Prod.fst)
  | [], acc => by simp
  | x :: xs, acc => by
    rw [List.foldl_cons, foldl_dictInsert_mem_keys k xs (dictInsert acc x), dictInsert_mem_keys]
    simp only [List.map_cons, List.mem_cons]
    tauto

theorem pyDict_mem_keys {l : List (List Char × List Char)} {k : List Char} :
    k ∈ (pyDict l).map Prod.fst ↔ k ∈ l.map Prod.fst := by
  unfold pyDict
  rw [foldl_dictInsert_mem_keys]
  simp

theorem lookupD_of_mem {k v dflt : List Char} :
    ∀ {d : List (List Char × List Char)}, (d.map Prod.fst).Nodup → (k, v) ∈ d →
      lookupD d k dflt = v := by
  intro d
  induction d with
  | nil => intro _ h; exact absurd h (List.not_mem_nil _)
  | cons e es ih =>
    intro hnd h
    have hnd1 : e.1 ∉ es.map Prod.fst := (List.nodup_cons.mp (by simpa using hnd)).1
    have hnd2 : (es.map Prod.fst).Nodup := (List.nodup_cons.mp (by simpa using hnd)).2
    unfold lookupD
    by_cases he : e.1 = k
    · rw [List.find?_cons_of_pos _ (by simpa using he)]
      rcases List.mem_cons.mp h with rfl | h
      · rfl
      · exact absurd (he ▸ List.mem_map.mpr ⟨(k, v), h, rfl⟩) hnd1
    · rw [List.find?_cons_of_neg _ (by simpa using he)]
      rcases List.mem_cons.mp h with rfl | h
      · exact absurd rfl he
      · have := ih hnd2 h
        unfold lookupD at this
        exact this

/-!
## Similarity bounds
-/

theorem commonLen_le_left : ∀ (a b : List Char), commonLen a b ≤ a.length
  | [], _ => by simp [commonLen]
  | _ :: _, [] => by simp [commonLen]
  | a :: as, b :: bs => by
    simp only [commonLen, List.length_cons]
    by_cases h : a = b
    · rw [if_pos h]
      exact Nat.succ_le_succ (commonLen_le_left as bs)
    · rw [if_neg h]
      exact Nat.zero_le _

theorem commonLen_le_right : ∀ (a b : List Char), commonLen a b ≤ b.length
  | [], _ => by simp [commonLen]
  | _ :: _, [] => by simp [commonLen]
  | a :: as, b :: bs => by
    simp only [commonLen, List.length_cons]
    by_cases h : a = b
    · rw [if_pos h]
      exact Nat.succ_le_succ (commonLen_le_right as bs)
    · rw [if_neg h]
      exact Nat.zero_le _

theorem bestForI_bounds (a b : List Char) (i : Nat) :
    (bestForI a b i).1 + (bestForI a b i).2 ≤ b.length ∧
      (bestForI a b i).2 ≤ a.length - i := by
  unfold bestForI
  refine foldl_preserve
    (fun (best : Nat × Nat) => best.1 + best.2 ≤ b.length ∧ best.2 ≤ a.length - i)
    ⟨by simp, by simp⟩ ?_
  intro acc j hj hacc
  dsimp only
  by_cases h : acc.2 < commonLen (a.drop i) (b.drop j)
  · rw [if_pos h]
    have h1 := commonLen_le_right (a.drop i) (b.drop j)
    have h2 := commonLen_le_left (a.drop i) (b.drop j)
    have h3 : j < b.length := List.mem_range.mp hj
    rw [List.length_drop] at h1 h2
    exact ⟨by omega, by omega⟩
  · rw [if_neg h]
    exact hacc

theorem findLongestMatch_bounds (a b : List Char) :
    (findLongestMatch a b).1 + (findLongestMatch a b).2.2 ≤ a.length ∧
      (findLongestMatch a b).2.1 + (findLongestMatch a b).2.2 ≤ b.length := by
  unfold findLongestMatch
  refine foldl_preserve
    (fun (best : Nat × Nat × Nat) => best.1 + best.2.2 ≤ a.length ∧ best.2.1 + best.2.2 ≤ b.length)
    ⟨by simp, by simp⟩ ?_
  intro acc i hi hacc
  dsimp only
  by_cases h : acc.2.2 < (bestForI a b i).2
  · rw [if_pos h]
    dsimp only
    obtain ⟨h1, h2⟩ := bestForI_bounds a b i
    have h3 : i < a.length := List.mem_range.mp hi
    exact ⟨by omega, by omega⟩
  · rw [if_neg h]
    exact hacc

theorem matchTotalF_le :
    ∀ (fuel : Nat) (a b : List Char),
      matchTotalF fuel a b ≤ a.length ∧ matchTotalF fuel a b ≤ b.length := by
  intro fuel
  induction fuel with
  | zero => intro a b; simp [matchTotalF]
  | succ fuel ih =>
    intro a b
    simp only [matchTotalF]
    by_cases h : (findLongestMatch a b).2.2 = 0
    · rw [if_pos h]
      simp
    · rw [if_neg h]
      obtain ⟨hb1, hb2⟩ := findLongestMatch_bounds a b
      obtain ⟨l1, l2⟩ := ih (a.take (findLongestMatch a b).1) (b.take (findLongestMatch a b).2.1)
      obtain ⟨r1, r2⟩ :=
        ih (a.drop ((findLongestMatch a b).1 + (findLongestMatch a b).2.2))
          (b.drop ((findLongestMatch a b).2.1 + (findLongestMatch a b).2.2))
      rw [List.length_take] at l1 l2
      rw [List.length_drop] at r1 r2
      exact ⟨by omega, by omega⟩

theorem matchTotal_le_left (a b : List Char) : matchTotal a b ≤ a.length :=
  (matchTotalF_le _ a b).1

theorem matchTotal_le_right (a b : List Char) : matchTotal a b ≤ b.length :=
  (matchTotalF_le _ a b).2

theorem ratioQ_nonneg (a b : List Char) : 0 ≤ ratioQ a b := by
  unfold ratioQ
  by_cases h : a.length + b.length = 0
  · rw [if_pos h]
    norm_num
  · rw [if_neg h]
    apply div_nonneg
    · positivity
    · positivity

theorem ratioQ_le_one (a b : List Char) : ratioQ a b ≤ 1 := by
  unfold ratioQ
  by_cases h : a.length + b.length = 0
  · rw [if_pos h]
  · rw [if_neg h]
    have hpos : (0 : ℚ) < (a.length : ℚ) + (b.length : ℚ) := by
      have : 0 < a.length + b.length := Nat.pos_of_ne_zero h
      exact_mod_cast this
    rw [div_le_one hpos]
    have h1 := matchTotal_le_left a b
    have h2 := matchTotal_le_right a b
    have : 2 * matchTotal a b ≤ a.length + b.length := by omega
    exact_mod_cast this

theorem similarity_nonneg (a b : List Char) : 0 ≤ similarity a b :=
  ratioQ_nonneg _ _

theorem similarity_le_one (a b : List Char) : similarity a b ≤ 1 :=
  ratioQ_le_one _ _

theorem pyInt_of_nonneg {x : ℚ} (h : 0 ≤ x) : pyInt x = ⌊x⌋ := if_pos h

theorem pyInt_nonneg {x : ℚ} (h : 0 ≤ x) : 0 ≤ pyInt x := by
  rw [pyInt_of_nonneg h]
  exact Int.floor_nonneg.mpr h

theorem boostTerm_nonneg (q r : List Char) {mb : ℤ} (h : 0 ≤ mb) :
    0 ≤ boostTerm q r mb := by
  unfold boostTerm
  by_cases hm : pyLower q <:+: pyLower r
  · rw [if_pos hm]
    exact h
  · rw [if_neg hm]
    exact pyInt_nonneg (mul_nonneg (similarity_nonneg q r) (by exact_mod_cast h))

theorem toolScore_default_nonneg (q r : List Char) : 0 ≤ toolScore q r 1 2 := by
  unfold toolScore
  have hb := boostTerm_nonneg q r (by norm_num : (0 : ℤ) ≤ 2)
  by_cases he : str "error" <:+: pyLower r
  · rw [if_pos he]
    omega
  · rw [if_neg he]
    omega

/-!
## Selection helper lemmas
-/

theorem findallGo_nil_of_no_infix {keys : List (List Char)} :
    ∀ (fuel : Nat) (text : List Char), (∀ k ∈ keys, ¬ (k <:+: text)) →
      findallGo keys fuel text = [] := by
  intro fuel
  induction fuel with
  | zero => intro text _; cases text <;> rfl
  | succ fuel ih =>
    intro text h
    cases text with
    | nil => rfl
    | cons c rest =>
      simp only [findallGo]
      cases hf : keys.find? (fun k => k.isPrefixOf (c :: rest)) with
      | some k =>
        have hk : k ∈ keys := List.mem_of_find?_eq_some hf
        have hpre := List.find?_some hf
        exact absurd (List.isPrefixOf_iff_prefix.mp hpre).isInfix (h k hk)
      | none =>
        apply ih
        intro k hk hinf
        exact h k hk (hinf.trans (List.suffix_cons c rest).isInfix)

theorem findallGo_mem {keys : List (List Char)} :
    ∀ {fuel : Nat} {text : List Char} {x : List Char}, x ∈ findallGo keys fuel text →
      x ∈ keys := by
  intro fuel
  induction fuel with
  | zero => intro text x hx; cases text <;> exact absurd hx (List.not_mem_nil _)
  | succ fuel ih =>
    intro text x hx
    cases text with
    | nil => exact absurd hx (List.not_mem_nil _)
    | cons c rest =>
      simp only [findallGo] at hx
      cases hf : keys.find? (fun k => k.isPrefixOf (c :: rest)) with
      | some k =>
        rw [hf] at hx
        rcases List.mem_cons.mp hx with rfl | hx
        · exact List.mem_of_find?_eq_some hf
        · exact ih hx
      | none =>
        rw [hf] at hx
        exact ih hx

theorem selectTools_subset {reg : List (List Char × Adapter)} {lq : List Char}
    {sugg : Option (List (List Char))} (hlow : ∀ k ∈ keysOf reg, pyLower k = k) :
    ∀ t ∈ selectTools reg lq sugg, t ∈ keysOf reg := by
  intro t ht
  simp only [selectTools] at ht
  by_cases h1 : str "search in all" <:+: lq
  · rw [if_pos h1] at ht
    exact ht
  · rw [if_neg h1] at ht
    cases hm : matchScoped lq with
    | some cap =>
      rw [hm] at ht
      dsimp only at ht
      rcases List.mem_filter.mp ht with ⟨_, hd⟩
      exact of_decide_eq_true hd
    | none =>
      rw [hm] at ht
      dsimp only at ht
      by_cases hfe : (findallNames (keysOf reg) lq).isEmpty
      · rw [if_pos hfe] at ht
        rw [if_pos (by rfl : (List.isEmpty ([] : List (List Char))) = true)] at ht
        cases sugg with
        | some names =>
          rcases List.mem_filter.mp ht with ⟨_, hd⟩
          exact of_decide_eq_true hd
        | none => exact ht
      · rw [if_neg hfe] at ht
        by_cases hde : (((findallNames (keysOf reg) lq).map pyLower).dedup).isEmpty
        · rw [if_pos hde] at ht
          cases sugg with
          | some names =>
            rcases List.mem_filter.mp ht with ⟨_, hd⟩
            exact of_decide_eq_true hd
          | none => exact ht
        · rw [if_neg hde] at ht
          rcases List.mem_map.mp (List.mem_dedup.mp ht) with ⟨k, hk, rfl⟩
          have hkk : k ∈ keysOf reg := findallGo_mem hk
          rw [hlow k hkk]
          exact hkk

/-!
## Claim theorems
-/

/-- C1: for every registry, every outcome of the external calls
(including the outcome in which every adapter call and every
language-model call fails) and every question, `process(question)`
returns a state carrying the original question in which all four derived
fields (`rephrased`, `retrieved`, `answer`, `summary`) are populated; in
the embedding `process` is a total function, so no adapter- or LLM-related
exception escapes it. -/
theorem C1_process_always_populates (reg : List (List Char × Adapter)) (o : LLMOracle)
    (q : List Char) :
    (process reg o q).question = q ∧ (process reg o q).rephrased.isSome ∧
    (process reg o q).retrieved.isSome ∧ (process reg o q).answer.isSome ∧
    (process reg o q).summary.isSome := by
  rcases o with ⟨r, s, a, f⟩
  cases r <;> cases a <;> cases f <;>
    simp [process, summarize, generate_answer, retrieve, rephrase]

/-- C4: the safe invocation wrapper never propagates an exception (it is
a total function of the adapter outcome): when the adapter raises it
returns the non-empty text `"Error while calling <name>."` — which
contains `"Error while calling "` immediately followed by the adapter
function's name — and when the adapter returns normally it passes the
result through unchanged. -/
theorem C4_safe_tool_call_contract (a : Adapter) (q : List Char) :
    (∀ e, a.run q = .error e →
      safe_tool_call a q = str "Error while calling " ++ a.fname ++ str "." ∧
      safe_tool_call a q ≠ [] ∧
      (str "Error while calling " ++ a.fname) <:+: safe_tool_call a q) ∧
    (∀ r, a.run q = .ok r → safe_tool_call a q = r) := by
  constructor
  · intro e he
    unfold safe_tool_call
    rw [he]
    refine ⟨rfl, ?_, ?_⟩
    · intro hc
      have := congrArg List.length hc
      simp [str] at this
    · show (str "Error while calling " ++ a.fname) <:+:
        (str "Error while calling " ++ a.fname ++ str ".")
      exact (List.prefix_append _ _).isInfix
  · intro r hr
    unfold safe_tool_call
    rw [hr]

/-- C4 witness: a concrete always-raising adapter produces exactly the
synthetic error text. -/
theorem C4_witness :
    safe_tool_call failing_adapter (str "q") =
      str "Error while calling " ++ str "failing_adapter" ++ str "." :=
  ((C4_safe_tool_call_contract failing_adapter (str "q")).1 (str "boom") rfl).1

/-- C7: whenever the lowercased question contains the phrase
"search in all", the selection is the full registered name set, no matter
what else the question mentions (this branch is checked first). -/
theorem C7_search_in_all (reg : List (List Char × Adapter)) (lq : List Char)
    (sugg : Option (List (List Char))) (h : str "search in all" <:+: lq) :
    selectTools reg lq sugg = keysOf reg := by
  simp only [selectTools]
  rw [if_pos h]

/-- C7 witness: a question that both contains "search in all" and
mentions a registered name selects every adapter. -/
theorem C7_witness :
    selectTools tools (str "search in all sources about graphql") none = keysOf tools :=
  C7_search_in_all tools _ none (by decide)

/-- C8: when no directive matches and no registered adapter name occurs
in the lowercased question, a failed LLM suggestion call (the `eval` or
the invocation raising) makes the selection fall back to the full
registered name set. -/
theorem C8_llm_failure_fallback (reg : List (List Char × Adapter)) (lq : List Char)
    (h1 : ¬ (str "search in all" <:+: lq)) (h2 : matchScoped lq = none)
    (h3 : ∀ k ∈ keysOf reg, ¬ (k <:+: lq)) :
    selectTools reg lq none = keysOf reg := by
  simp only [selectTools]
  rw [if_neg h1, h2]
  have hf : findallNames (keysOf reg) lq = [] := findallGo_nil_of_no_infix _ _ h3
  rw [hf]
  rfl

/-- C8 witness: a question mentioning no adapter and matching no
directive, with the suggestion call failing, selects every adapter. -/
theorem C8_witness : selectTools tools (str "hello there") none = keysOf tools :=
  C8_llm_failure_fallback tools _ (by decide) (by decide) (by decide)

/-- C2 (amended): the selection is non-empty whenever the question
contains "search in all", or when no scoped directive matches and the
LLM-assisted suggestion fails; an explicit scoped directive naming only
unregistered adapters can leave it empty (see the counterexample). -/
theorem C2_selection_nonempty_amended (lq : List Char) (sugg : Option (List (List Char)))
    (h : str "search in all" <:+: lq ∨ (matchScoped lq = none ∧ sugg = none)) :
    selectTools tools lq sugg ≠ [] := by
  simp only [selectTools]
  by_cases h1 : str "search in all" <:+: lq
  · rw [if_pos h1]
    decide
  · rcases h with h | ⟨h2, h3⟩
    · exact absurd h h1
    · rw [if_neg h1, h2, h3]
      dsimp only
      by_cases he :
          (if (findallNames (keysOf tools) lq).isEmpty then ([] : List (List Char))
            else ((findallNames (keysOf tools) lq).map pyLower).dedup).isEmpty
      · rw [if_pos he]
        decide
      · rw [if_neg he]
        intro hc
        rw [hc] at he
        exact he rfl

/-- C2 counterexample: the scoped directive "search in zzz" names only an
unregistered adapter, and the selection it produces is empty — so it is
not the case that every input yields a non-empty toolset. -/
theorem C2_counterexample_empty_selection :
    selectTools tools (str "search in zzz") none = [] := by decide

/-- C2 witness: a question with no directive and a failing suggestion
call yields a non-empty selection. -/
theorem C2_witness : selectTools tools (str "how is the weather") none ≠ [] :=
  C2_selection_nonempty_amended _ none (Or.inr ⟨by decide, rfl⟩)

/-- C5 (amended): the ranker's score is exactly the spec formula —
base 1, plus 2 on a literal lowercased substring match and
`floor(similarity * 2)` otherwise, minus 1 for a result containing the
word "error" — with `similarity` a ratio in `[0, 1]`; the score is not
clamped, but with the default boost 2 and penalty 1 it is never
negative. -/
theorem C5_score_formula_amended (q r : List Char) :
    toolScore q r 1 2 = specScore q r ∧ 0 ≤ toolScore q r 1 2 ∧
    0 ≤ similarity q r ∧ similarity q r ≤ 1 := by
  refine ⟨?_, toolScore_default_nonneg q r, similarity_nonneg q r, similarity_le_one q r⟩
  unfold toolScore specScore boostTerm
  by_cases hm : pyLower q <:+: pyLower r
  · rw [if_pos hm, if_pos hm]
  · rw [if_neg hm, if_neg hm,
      pyInt_of_nonneg (mul_nonneg (similarity_nonneg q r) (by norm_num))]
    norm_num

/-- C5 counterexample: with the stated constants (boost 2, penalty 1) a
negative score is impossible, refuting "scores may be negative". -/
theorem C5_counterexample_no_negative_score :
    ¬ ∃ q r, toolScore q r 1 2 < 0 := by
  rintro ⟨q, r, h⟩
  exact absurd h (not_lt.mpr (toolScore_default_nonneg q r))

/-- C9: for two results of a ranked mapping that receive the same boost
(same base, same match boost), the one containing the word "error" gets a
strictly lower score than the one without it, and it never appears before
the clean one in the ranker's output. -/
theorem C9_error_never_outranks (q : List Char) (tr : List (List Char × List Char))
    (t1 r1 t2 r2 : List Char) (_h1 : (t1, r1) ∈ tr) (_h2 : (t2, r2) ∈ tr)
    (hb : boostTerm q r1 2 = boostTerm q r2 2)
    (he1 : str "error" <:+: pyLower r1) (he2 : ¬ (str "error" <:+: pyLower r2)) :
    toolScore q r1 1 2 < toolScore q r2 1 2 ∧
    ∀ l1 l2, rank_results q tr 1 2 = l1 ++ (t1, toolScore q r1 1 2) :: l2 →
      (t2, toolScore q r2 1 2) ∉ l2 := by
  have hlt : toolScore q r1 1 2 < toolScore q r2 1 2 := by
    unfold toolScore
    rw [hb, if_pos he1, if_neg he2]
    omega
  refine ⟨hlt, ?_⟩
  intro l1 l2 hsplit hmem
  have hpw : (rank_results q tr 1 2).Pairwise (fun u v => v.2 ≤ u.2) := by
    unfold rank_results
    exact sortDescBy_pairwise _ _
  rw [hsplit] at hpw
  rcases List.pairwise_append.mp hpw with ⟨_, hpw2, _⟩
  rcases List.pairwise_cons.mp hpw2 with ⟨hhead, _⟩
  have hle := hhead _ hmem
  dsimp at hle
  omega

/-- C9 witness: with a shared literal match boost, the "error" result
scores strictly below the clean one. -/
theorem C9_witness :
    toolScore (str "ok") (str "ok error") 1 2 < toolScore (str "ok") (str "ok fine") 1 2 :=
  (C9_error_never_outranks (str "ok")
    [(str "a", str "ok error"), (str "b", str "ok fine")]
    (str "a") (str "ok error") (str "b") (str "ok fine")
    (by decide) (by decide) (by decide) (by decide) (by decide)).1

/-- C6: the ranker's output is a permutation of the scored entries,
ordered by score descending, with ties keeping the input mapping's
iteration order (stable sort); and on the Retrieve success path the
stored `retrieved` mapping has exactly the ranked iteration order. -/
theorem C6_ranked_order :
    (∀ (q : List Char) (tr : List (List Char × List Char)) (ep mb : ℤ),
      (rank_results q tr ep mb).Pairwise (fun u v => v.2 ≤ u.2)) ∧
    (∀ (q : List Char) (tr : List (List Char × List Char)) (ep mb : ℤ)
      (a b : List Char × ℤ), a.2 = b.2 →
      List.Sublist [a, b] (tr.map (fun e => (e.1, toolScore q e.2 ep mb))) →
      List.Sublist [a, b] (rank_results q tr ep mb)) ∧
    (∀ (q : List Char) (tr : List (List Char × List Char)) (ep mb : ℤ),
      (rank_results q tr ep mb).Perm
        (tr.map (fun e => (e.1, toolScore q e.2 ep mb)))) ∧
    (∀ (reg : List (List Char × Adapter)) (o : LLMOracle) (state : AgentState),
      o.retrieveFails = false →
      (retrieve reg o state).retrieved =
        some (retrieveSuccess reg (state.rephrased.getD []) o.suggestOut)) ∧
    (∀ (reg : List (List Char × Adapter)) (q : List Char)
      (sugg : Option (List (List Char))),
      (retrieveSuccess reg q sugg).map Prod.fst =
        (rank_results q (toolResultsOf reg q sugg) 1 2).map Prod.fst) := by
  refine ⟨?_, ?_, ?_, ?_, ?_⟩
  · intro q tr ep mb
    exact sortDescBy_pairwise _ _
  · intro q tr ep mb a b hab hsub
    exact sortDescBy_stable hab.ge hsub
  · intro q tr ep mb
    exact sortDescBy_perm _ _
  · intro reg o state hf
    simp [retrieve, hf]
  · intro reg q sugg
    unfold retrieveSuccess
    dsimp only
    rw [sortAscBy_neg_snd,
      sortDescBy_of_pairwise (by unfold rank_results; exact sortDescBy_pairwise _ _)]
    rw [List.map_map]
    exact List.map_congr_left (fun e _ => rfl)

/-- C6 witness: two equal-scored entries keep their input order in the
ranked output, and a non-failing Retrieve stores the success-path
mapping. -/
theorem C6_witness :
    List.Sublist [(str "a", (3 : ℤ)), (str "b", (3 : ℤ))]
      (rank_results (str "qq") [(str "a", str "qq"), (str "b", str "qq")] 1 2) ∧
    (retrieve tools ⟨some (str "x"), none, some (str "y"), false⟩
        ⟨str "x", some (str "x"), none, none, none⟩).retrieved =
      some (retrieveSuccess tools (str "x") none) :=
  ⟨C6_ranked_order.2.1 (str "qq") [(str "a", str "qq"), (str "b", str "qq")] 1 2
      (str "a", (3 : ℤ)) (str "b", (3 : ℤ)) rfl (by decide),
   C6_ranked_order.2.2.2.1 tools ⟨some (str "x"), none, some (str "y"), false⟩
      ⟨str "x", some (str "x"), none, none, none⟩ rfl⟩

/-- C10: on the Retrieve success path the stored mapping is a
permutation of the collected `tool_results`: its keys are exactly the
distinct selected adapters, each appearing once, and each value is
precisely what the safe invocation wrapper returned for that adapter;
`hlow` records that registry names are lowercase (as the source
registry's are), which the lowercased matching relies on. -/
theorem C10_retrieved_entries_exact (reg : List (List Char × Adapter)) (q : List Char)
    (sugg : Option (List (List Char)))
    (hlow : ∀ k ∈ keysOf reg, pyLower k = k) :
    (retrieveSuccess reg q sugg).Perm (toolResultsOf reg q sugg) ∧
    ((retrieveSuccess reg q sugg).map Prod.fst).Nodup ∧
    (∀ t, t ∈ (retrieveSuccess reg q sugg).map Prod.fst ↔
      t ∈ selectTools reg (pyLower q) sugg) ∧
    (∀ t v, (t, v) ∈ retrieveSuccess reg q sugg →
      ∃ a, findAdapter reg t = some a ∧ v = safe_tool_call a q) := by
  have hval : ∀ p ∈ (selectTools reg (pyLower q) sugg).map
      (fun t => (t, callByName reg t q)), p.2 = callByName reg p.1 q := by
    intro p hp
    rcases List.mem_map.mp hp with ⟨t, _, rfl⟩
    rfl
  obtain ⟨hnd, hv⟩ := pyDict_nodup_val (fun k => callByName reg k q) hval
  have hnd2 : ((toolResultsOf reg q sugg).map Prod.fst).Nodup := hnd
  have hv2 : ∀ p ∈ toolResultsOf reg q sugg, p.2 = callByName reg p.1 q := hv
  have hperm : (retrieveSuccess reg q sugg).Perm (toolResultsOf reg q sugg) := by
    unfold retrieveSuccess
    dsimp only
    rw [sortAscBy_neg_snd, sortDescBy_of_pairwise
      (by unfold rank_results; exact sortDescBy_pairwise _ _)]
    have h1 : (rank_results q (toolResultsOf reg q sugg) 1 2).Perm
        ((toolResultsOf reg q sugg).map (fun e => (e.1, toolScore q e.2 1 2))) := by
      unfold rank_results
      exact sortDescBy_perm _ _
    have h2 := h1.map (fun e => (e.1, lookupD (toolResultsOf reg q sugg) e.1 []))
    rw [List.map_map] at h2
    have h3 : (toolResultsOf reg q sugg).map
        ((fun e => (e.1, lookupD (toolResultsOf reg q sugg) e.1 [])) ∘
          (fun e => (e.1, toolScore q e.2 1 2))) = toolResultsOf reg q sugg := by
      have : ∀ p ∈ toolResultsOf reg q sugg,
          ((fun e => (e.1, lookupD (toolResultsOf reg q sugg) e.1 [])) ∘
            (fun e => (e.1, toolScore q e.2 1 2))) p = id p := by
        intro p hp
        have : (p.1, p.2) ∈ toolResultsOf reg q sugg := by
          rw [Prod.mk.eta]
          exact hp
        simp only [Function.comp, id]
        rw [lookupD_of_mem hnd2 this]
      rw [List.map_congr_left this, List.map_id]
    rw [h3] at h2
    exact h2
  refine ⟨hperm, ?_, ?_, ?_⟩
  · exact ((hperm.map Prod.fst).nodup_iff).mpr hnd2
  · intro t
    rw [(hperm.map Prod.fst).mem_iff]
    unfold toolResultsOf
    rw [pyDict_mem_keys, List.map_map]
    constructor
    · intro ht
      rcases List.mem_map.mp ht with ⟨x, hx, hxe⟩
      simpa [← hxe] using hx
    · intro ht
      exact List.mem_map.mpr ⟨t, ht, rfl⟩
  · intro t v hmem
    have hmem2 : (t, v) ∈ toolResultsOf reg q sugg := hperm.mem_iff.mp hmem
    have hvv := hv2 _ hmem2
    dsimp at hvv
    have hsel : t ∈ selectTools reg (pyLower q) sugg := by
      have : t ∈ (toolResultsOf reg q sugg).map Prod.fst :=
        List.mem_map.mpr ⟨(t, v), hmem2, rfl⟩
      unfold toolResultsOf at this
      rw [pyDict_mem_keys, List.map_map] at this
      rcases List.mem_map.mp this with ⟨x, hx, hxe⟩
      simpa [← hxe] using hx
    have hkey : t ∈ keysOf reg := selectTools_subset hlow t hsel
    cases hfa : findAdapter reg t with
    | none =>
      exfalso
      unfold findAdapter at hfa
      rcases List.mem_map.mp hkey with ⟨entry, hent, hefst⟩
      have hnone := List.find?_eq_none.mp (Option.map_eq_none.mp hfa) entry hent
      simp [hefst] at hnone
    | some a =>
      refine ⟨a, rfl, ?_⟩
      rw [hvv]
      unfold callByName
      rw [hfa]

/-- C10 witness: discharging the lowercase-registry hypothesis on the
source registry, the stored mapping is a permutation of the collected
results. -/
theorem C10_witness :
    (retrieveSuccess tools (str "hello") none).Perm (toolResultsOf tools (str "hello") none) :=
  (C10_retrieved_entries_exact tools (str "hello") none (by decide)).1

/-!
## Scoped-directive support lemmas
-/

theorem word_not_space {c : Char} (h : isWordChar c = true) : pyIsSpace c = false := by
  cases hsp : pyIsSpace c
  · rfl
  · exfalso
    simp only [pyIsSpace, decide_eq_true_eq] at hsp
    rcases hsp with rfl | rfl | rfl | rfl | rfl | rfl <;> exact absurd h (by decide)

theorem word_not_comma {c : Char} (h : isWordChar c = true) : c ≠ ',' := by
  rintro rfl
  exact absurd h (by decide)

theorem countWs_cons_pos {c : Char} (r : List Char) (h : pyIsSpace c = true) :
    countWs (c :: r) = countWs r + 1 := by
  unfold countWs
  rw [List.takeWhile_cons_of_pos h]
  simp

theorem countWs_cons_neg {c : Char} (r : List Char) (h : pyIsSpace c = false) :
    countWs (c :: r) = 0 := by
  unfold countWs
  rw [List.takeWhile_cons_of_neg (by simp [h])]
  rfl

theorem countWs_nil : countWs [] = 0 := rfl

theorem countWord_eq_length {l : List Char} (h : ∀ c ∈ l, isWordChar c = true) :
    countWord l = l.length := by
  unfold countWord
  rw [takeWhile_eq_self_of_all h]

theorem countWord_append_of_stop {l r : List Char} (h : ∀ c ∈ l, isWordChar c = true)
    (hr : r.takeWhile isWordChar = []) : countWord (l ++ r) = l.length := by
  unfold countWord
  rw [List.takeWhile_append, if_pos (by rw [takeWhile_eq_self_of_all h]), hr]
  simp

theorem countWord_pos_of_head {c : Char} {r : List Char} (h : isWordChar c = true) :
    1 ≤ countWord (c :: r) := by
  unfold countWord
  rw [List.takeWhile_cons_of_pos h]
  simp

theorem dropWhile_eq_self_of_nonsp {m : List Char} (h : ∀ c ∈ m, pyIsSpace c = false) :
    m.dropWhile pyIsSpace = m := by
  cases m with
  | nil => rfl
  | cons c r => exact List.dropWhile_cons_of_neg (by simp [h c (List.mem_cons_self c r)])

theorem pyStrip_of_word {l : List Char} (h : ∀ c ∈ l, isWordChar c = true) :
    pyStrip l = l := by
  unfold pyStrip
  rw [dropWhile_eq_self_of_nonsp (fun c hc => word_not_space (h c hc)),
    dropWhile_eq_self_of_nonsp
      (fun c hc => word_not_space (h c (List.mem_reverse.mp hc))),
    List.reverse_reverse]

theorem joinAnd_head :
    ∀ {names : List (List Char)}, names ≠ [] →
      (∀ n ∈ names, n ≠ [] ∧ ∀ c ∈ n, isWordChar c = true) →
      ∃ c rest, joinAnd names = c :: rest ∧ isWordChar c = true := by
  intro names hne h
  match names with
  | [] => exact absurd rfl hne
  | [n] =>
    obtain ⟨hn, hw⟩ := h n (List.mem_cons_self n [])
    cases n with
    | nil => exact absurd rfl hn
    | cons c r =>
      exact ⟨c, r, rfl, hw c (List.mem_cons_self c r)⟩
  | n :: m :: rest =>
    obtain ⟨hn, hw⟩ := h n (List.mem_cons_self n (m :: rest))
    cases n with
    | nil => exact absurd rfl hn
    | cons c r =>
      refine ⟨c, r ++ str " and " ++ joinAnd (m :: rest), ?_, hw c (List.mem_cons_self c r)⟩
      simp [joinAnd]

theorem joinAnd_length :
    ∀ {names : List (List Char)}, names ≠ [] →
      (∀ n ∈ names, n ≠ [] ∧ ∀ c ∈ n, isWordChar c = true) →
      names.length ≤ (joinAnd names).length := by
  intro names
  match names with
  | [] => intro hne _; exact absurd rfl hne
  | [n] =>
    intro _ h
    obtain ⟨hn, _⟩ := h n (List.mem_cons_self n [])
    have : 0 < n.length := List.length_pos.mpr hn
    simpa [joinAnd] using this
  | n :: m :: rest =>
    intro _ h
    have ih := @joinAnd_length (m :: rest) (by simp)
      (fun x hx => h x (List.mem_cons_of_mem n hx))
    simp only [joinAnd, List.length_append, List.length_cons]
    simp only [List.length_cons] at ih
    have := ih
    simp [str] at this ⊢
    omega

theorem grabLen_joinAnd :
    ∀ (names : List (List Char)) (fuel : Nat), names ≠ [] → names.length ≤ fuel →
      (∀ n ∈ names, n ≠ [] ∧ ∀ c ∈ n, isWordChar c = true) →
      grabLen fuel (joinAnd names) = (joinAnd names).length := by
  intro names
  induction names with
  | nil => intro fuel hne _ _; exact absurd rfl hne
  | cons n rest ih =>
    intro fuel _ hf h
    obtain ⟨hn, hw⟩ := h n (List.mem_cons_self n rest)
    obtain ⟨f, rfl⟩ : ∃ f, fuel = f + 1 := ⟨fuel - 1, by simp at hf; omega⟩
    cases rest with
    | nil =>
      simp only [joinAnd, grabLen]
      rw [countWord_eq_length hw, List.drop_length]
      rw [if_neg (by rintro ⟨h1, -⟩; exact absurd h1 (by decide))]
    | cons m rest2 =>
      have hJ := @joinAnd_head (m :: rest2) (by simp)
        (fun x hx => h x (List.mem_cons_of_mem n hx))
      obtain ⟨c, r', hcr, hc⟩ := hJ
      have hassoc : joinAnd (n :: m :: rest2) = n ++ (str " and " ++ joinAnd (m :: rest2)) := by
        simp [joinAnd, List.append_assoc]
      have hw2 : countWord (n ++ (str " and " ++ joinAnd (m :: rest2))) = n.length :=
        countWord_append_of_stop hw (List.takeWhile_cons_of_neg (by decide))
      have hdropn : (n ++ (str " and " ++ joinAnd (m :: rest2))).drop n.length =
          str " and " ++ joinAnd (m :: rest2) := List.drop_left n _
      have hs1 : countWs (str " and " ++ joinAnd (m :: rest2)) = 1 := by
        rw [show str " and " ++ joinAnd (m :: rest2) =
          ' ' :: (str "and " ++ joinAnd (m :: rest2)) from rfl,
          countWs_cons_pos _ (by decide),
          show str "and " ++ joinAnd (m :: rest2) =
            'a' :: (str "nd " ++ joinAnd (m :: rest2)) from rfl,
          countWs_cons_neg _ (by decide)]
      have hdrop1 : (str " and " ++ joinAnd (m :: rest2)).drop 1 =
          str "and " ++ joinAnd (m :: rest2) := rfl
      have hpre : str "and" <+: str "and " ++ joinAnd (m :: rest2) :=
        List.prefix_append _ _
      have hdrop4 : (str " and " ++ joinAnd (m :: rest2)).drop (1 + 3) =
          ' ' :: joinAnd (m :: rest2) := rfl
      have hs2 : countWs (' ' :: joinAnd (m :: rest2)) = 1 := by
        rw [countWs_cons_pos _ (by decide), hcr, countWs_cons_neg _ (word_not_space hc)]
      have hdrop5 : (str " and " ++ joinAnd (m :: rest2)).drop (1 + 3 + 1) =
          joinAnd (m :: rest2) := rfl
      have hcw : 1 ≤ countWord (joinAnd (m :: rest2)) := by
        rw [hcr]
        exact countWord_pos_of_head hc
      have hih : grabLen f (joinAnd (m :: rest2)) = (joinAnd (m :: rest2)).length :=
        ih f (by simp) (by simp at hf ⊢; omega)
          (fun x hx => h x (List.mem_cons_of_mem n hx))
      rw [hassoc]
      simp only [grabLen]
      rw [hw2, hdropn, hs1, hdrop1, hdrop4, hs2]
      rw [if_pos ⟨le_refl 1, hpre, le_refl 1⟩]
      rw [hdrop5]
      rw [if_pos hcw, hih]
      have h5 : (str " and ").length = 5 := rfl
      rw [List.length_append, List.length_append, h5]
      omega

theorem pySplitGo_ne_nil : ∀ (fuel : Nat) (t : List Char), pySplitGo fuel t ≠ [] := by
  intro fuel
  induction fuel with
  | zero => intro t; cases t <;> simp [pySplitGo]
  | succ fuel ih =>
    intro t
    cases t with
    | nil => simp [pySplitGo]
    | cons c rest =>
      simp only [pySplitGo]
      cases sepMatchLen (c :: rest) with
      | some n => simp
      | none =>
        cases hgo : pySplitGo fuel rest with
        | nil => exact absurd hgo (ih rest)
        | cons p ps => simp

theorem sepMatchLen_word {c : Char} (x : List Char) (h : isWordChar c = true) :
    sepMatchLen (c :: x) = none := by
  unfold sepMatchLen
  rw [countWs_cons_neg _ (word_not_space h)]
  rw [if_neg (by rintro ⟨h1, -⟩; exact absurd h1 (by decide))]
  rw [if_neg ?_]
  rw [List.drop_zero]
  rintro hp
  rcases List.cons_prefix_cons.mp hp with ⟨hcc, -⟩
  exact word_not_comma h hcc.symm

theorem sepMatchLen_and {J : List Char} {c : Char} {r2 : List Char}
    (hJ : J = c :: r2) (hc : isWordChar c = true) :
    sepMatchLen (str " and " ++ J) = some 5 := by
  simp only [sepMatchLen]
  have hs1 : countWs (str " and " ++ J) = 1 := by
    rw [show str " and " ++ J = ' ' :: (str "and " ++ J) from rfl,
      countWs_cons_pos _ (by decide),
      show str "and " ++ J = 'a' :: (str "nd " ++ J) from rfl,
      countWs_cons_neg _ (by decide)]
  rw [hs1]
  have hdrop1 : (str " and " ++ J).drop 1 = str "and " ++ J := rfl
  have hdrop4 : (str " and " ++ J).drop (1 + 3) = ' ' :: J := rfl
  rw [hdrop1, hdrop4]
  have hsJ : countWs (' ' :: J) = 1 := by
    rw [countWs_cons_pos _ (by decide), hJ, countWs_cons_neg _ (word_not_space hc)]
  rw [hsJ]
  rw [if_pos ⟨le_refl 1, List.prefix_append _ _, le_refl 1⟩]

theorem pySplitGo_sep {J : List Char} {c : Char} {r2 : List Char} (hJ : J = c :: r2)
    (hc : isWordChar c = true) (f2 : Nat) :
    pySplitGo (f2 + 1) (str " and " ++ J) = [] :: pySplitGo f2 J := by
  show pySplitGo (f2 + 1) (' ' :: (str "and " ++ J)) = [] :: pySplitGo f2 J
  simp only [pySplitGo]
  have hsep : sepMatchLen (' ' :: (str "and " ++ J)) = some 5 := sepMatchLen_and hJ hc
  rw [hsep]
  rfl

theorem pySplitGo_word_spine :
    ∀ (l : List Char) (fuel : Nat) (t : List Char),
      (∀ c ∈ l, isWordChar c = true) → l.length + t.length ≤ fuel →
      ∃ p ps, pySplitGo (fuel - l.length) t = p :: ps ∧
        pySplitGo fuel (l ++ t) = (l ++ p) :: ps := by
  intro l
  induction l with
  | nil =>
    intro fuel t _ _
    cases hgo : pySplitGo fuel t with
    | nil => exact absurd hgo (pySplitGo_ne_nil fuel t)
    | cons p ps => exact ⟨p, ps, by simpa using hgo, by simpa using hgo⟩
  | cons c l2 ih =>
    intro fuel t hword hf
    obtain ⟨f, rfl⟩ : ∃ f, fuel = f + 1 := ⟨fuel - 1, by simp at hf; omega⟩
    have hc : isWordChar c = true := hword c (List.mem_cons_self c l2)
    obtain ⟨p, ps, hp1, hp2⟩ := ih f t
      (fun d hd => hword d (List.mem_cons_of_mem c hd)) (by simp at hf ⊢; omega)
    refine ⟨p, ps, ?_, ?_⟩
    · rw [show (f + 1) - (c :: l2).length = f - l2.length by
        simp only [List.length_cons]; omega]
      exact hp1
    · rw [List.cons_append]
      simp only [pySplitGo]
      rw [sepMatchLen_word _ hc, hp2]
      rfl

theorem pySplitGo_joinAnd :
    ∀ (names : List (List Char)) (fuel : Nat), names ≠ [] →
      (joinAnd names).length ≤ fuel →
      (∀ n ∈ names, n ≠ [] ∧ ∀ c ∈ n, isWordChar c = true) →
      pySplitGo fuel (joinAnd names) = names := by
  intro names
  induction names with
  | nil => intro fuel hne _ _; exact absurd rfl hne
  | cons n rest ih =>
    intro fuel _ hf h
    obtain ⟨hn, hw⟩ := h n (List.mem_cons_self n rest)
    cases rest with
    | nil =>
      have hJ : joinAnd [n] = n := rfl
      rw [hJ] at hf ⊢
      obtain ⟨p, ps, hp1, hp2⟩ :=
        pySplitGo_word_spine n fuel [] hw (by simpa using hf)
      have hnil : ∀ f2, pySplitGo f2 ([] : List Char) = [[]] := fun f2 => by
        cases f2 <;> rfl
      rw [hnil] at hp1
      injection hp1 with h1 h2
      subst h1
      subst h2
      rw [List.append_nil] at hp2
      exact hp2
    | cons m rest2 =>
      obtain ⟨c, r2, hcr, hc⟩ := @joinAnd_head (m :: rest2) (by simp)
        (fun x hx => h x (List.mem_cons_of_mem n hx))
      have hassoc : joinAnd (n :: m :: rest2) = n ++ (str " and " ++ joinAnd (m :: rest2)) := by
        simp [joinAnd, List.append_assoc]
      rw [hassoc] at hf ⊢
      obtain ⟨p, ps, hp1, hp2⟩ :=
        pySplitGo_word_spine n fuel (str " and " ++ joinAnd (m :: rest2)) hw (by
          rw [List.length_append] at hf
          omega)
      have h5 : (str " and ").length = 5 := rfl
      have hlen : 5 + (joinAnd (m :: rest2)).length + n.length ≤ fuel := by
        rw [List.length_append, List.length_append, h5] at hf
        omega
      obtain ⟨f2, hf2⟩ : ∃ f2, fuel - n.length = f2 + 1 := ⟨fuel - n.length - 1, by omega⟩
      rw [hf2, pySplitGo_sep hcr hc f2] at hp1
      have hih : pySplitGo f2 (joinAnd (m :: rest2)) = m :: rest2 :=
        ih f2 (by simp) (by omega) (fun x hx => h x (List.mem_cons_of_mem n hx))
      rw [hih] at hp1
      injection hp1 with h1 h2
      subst h1
      subst h2
      rw [List.append_nil] at hp2
      exact hp2

theorem matchScopedAt_search_in {J : List Char} {c : Char} {r2 : List Char}
    (hJ : J = c :: r2) (hc : isWordChar c = true)
    (hg : grabLen J.length J = J.length) :
    matchScopedAt (str "search in " ++ J) = some J := by
  have h1 : str "search" <+: str "search in " ++ J :=
    List.prefix_append (str "search") (str " in " ++ J)
  have ht1 : (str "search in " ++ J).drop 6 = str " in " ++ J := rfl
  have hcws1 : countWs (str " in " ++ J) = 1 := by
    rw [show str " in " ++ J = ' ' :: (str "in " ++ J) from rfl,
      countWs_cons_pos _ (by decide),
      show str "in " ++ J = 'i' :: (str "n " ++ J) from rfl,
      countWs_cons_neg _ (by decide)]
  have ht2 : (str " in " ++ J).drop 1 = str "in " ++ J := rfl
  have honly : ¬ (str "only" <+: str "in " ++ J ∧
      1 ≤ countWs ((str "in " ++ J).drop 4)) := by
    rintro ⟨hp, -⟩
    rcases List.cons_prefix_cons.mp hp with ⟨hco, -⟩
    exact absurd hco (by decide)
  have hin : str "in" <+: str "in " ++ J :=
    List.prefix_append (str "in") (str " " ++ J)
  have ht3d : (str "in " ++ J).drop 2 = ' ' :: J := rfl
  have hcws2 : countWs (' ' :: J) = 1 := by
    rw [countWs_cons_pos _ (by decide), hJ, countWs_cons_neg _ (word_not_space hc)]
  have ht4 : (' ' :: J).drop 1 = J := rfl
  have hcw : 1 ≤ countWord J := by
    rw [hJ]
    exact countWord_pos_of_head hc
  simp only [matchScopedAt]
  rw [if_pos h1, ht1, hcws1, if_pos (le_refl 1), ht2, if_neg honly, ht3d, hcws2,
    if_pos ⟨hin, le_refl 1⟩, ht4, if_pos hcw, hg, List.take_length]

theorem matchScopedAt_search_only_in {J : List Char} {c : Char} {r2 : List Char}
    (hJ : J = c :: r2) (hc : isWordChar c = true)
    (hg : grabLen J.length J = J.length) :
    matchScopedAt (str "search only in " ++ J) = some J := by
  have h1 : str "search" <+: str "search only in " ++ J :=
    List.prefix_append (str "search") (str " only in " ++ J)
  have ht1 : (str "search only in " ++ J).drop 6 = str " only in " ++ J := rfl
  have hcws1 : countWs (str " only in " ++ J) = 1 := by
    rw [show str " only in " ++ J = ' ' :: (str "only in " ++ J) from rfl,
      countWs_cons_pos _ (by decide),
      show str "only in " ++ J = 'o' :: (str "nly in " ++ J) from rfl,
      countWs_cons_neg _ (by decide)]
  have ht2 : (str " only in " ++ J).drop 1 = str "only in " ++ J := rfl
  have honlyp : str "only" <+: str "only in " ++ J :=
    List.prefix_append (str "only") (str " in " ++ J)
  have ht4d : (str "only in " ++ J).drop 4 = str " in " ++ J := rfl
  have hcws4 : countWs (str " in " ++ J) = 1 := by
    rw [show str " in " ++ J = ' ' :: (str "in " ++ J) from rfl,
      countWs_cons_pos _ (by decide),
      show str "in " ++ J = 'i' :: (str "n " ++ J) from rfl,
      countWs_cons_neg _ (by decide)]
  have ht5 : (str " in " ++ J).drop 1 = str "in " ++ J := rfl
  have hin : str "in" <+: str "in " ++ J :=
    List.prefix_append (str "in") (str " " ++ J)
  have ht3d : (str "in " ++ J).drop 2 = ' ' :: J := rfl
  have hcws2 : countWs (' ' :: J) = 1 := by
    rw [countWs_cons_pos _ (by decide), hJ, countWs_cons_neg _ (word_not_space hc)]
  have ht4 : (' ' :: J).drop 1 = J := rfl
  have hcw : 1 ≤ countWord J := by
    rw [hJ]
    exact countWord_pos_of_head hc
  have ht3sel : (if str "only" <+: str "only in " ++ J ∧ 1 ≤ 1 then str "in " ++ J
      else str "only in " ++ J) = str "in " ++ J := if_pos ⟨honlyp, le_refl 1⟩
  simp only [matchScopedAt]
  rw [if_pos h1, ht1, hcws1, if_pos (le_refl 1), ht2, ht4d, hcws4, ht5]
  rw [ht3sel]
  rw [ht3d, hcws2, if_pos ⟨hin, le_refl 1⟩, ht4, if_pos hcw, hg, List.take_length]

theorem matchScoped_cons {c : Char} {r : List Char} {cap : List Char}
    (h : matchScopedAt (c :: r) = some cap) : matchScoped (c :: r) = some cap := by
  simp only [matchScoped]
  rw [h]

/-- C3 (amended): for the concrete spec example the selection is exactly
`confluence` and `graphql`; and in general, for a question of the form
"search [only] in X and Y and ..." with an "and"-separated list of
non-empty word-character names (comma-separated lists are not fully
captured: the capture stops at the first comma, see the counterexample),
the selection is exactly the named adapters that exist in the registry —
unregistered names are dropped and no other adapters are added. -/
theorem C3_scoped_directive_amended :
    (selectTools tools (str "search only in confluence and graphql") none =
      [str "confluence", str "graphql"]) ∧
    (∀ (reg : List (List Char × Adapter)) (names : List (List Char))
      (sugg : Option (List (List Char))) (only : Bool),
      names ≠ [] →
      (∀ n ∈ names, n ≠ [] ∧ ∀ c ∈ n, isWordChar c = true) →
      ¬ (str "search in all" <:+:
        (str "search " ++ ((if only then str "only " else []) ++
          (str "in " ++ joinAnd names)))) →
      selectTools reg
        (str "search " ++ ((if only then str "only " else []) ++
          (str "in " ++ joinAnd names))) sugg =
        names.filter (fun t => decide (t ∈ keysOf reg))) := by
  constructor
  · decide
  · intro reg names sugg only hne h hinf
    obtain ⟨c, r2, hcr, hc⟩ := joinAnd_head hne h
    have hg : grabLen (joinAnd names).length (joinAnd names) = (joinAnd names).length :=
      grabLen_joinAnd names (joinAnd names).length hne (joinAnd_length hne h) h
    have hsplit : pySplitSep (joinAnd names) = names := by
      unfold pySplitSep
      exact pySplitGo_joinAnd names (joinAnd names).length hne (le_refl _) h
    have hms : matchScoped (str "search " ++ ((if only then str "only " else []) ++
        (str "in " ++ joinAnd names))) = some (joinAnd names) := by
      cases only with
      | false =>
        show matchScoped ('s' :: (str "earch in " ++ joinAnd names)) = some (joinAnd names)
        exact matchScoped_cons
          (show matchScopedAt (str "search in " ++ joinAnd names) = some (joinAnd names) from
            matchScopedAt_search_in hcr hc hg)
      | true =>
        show matchScoped ('s' :: (str "earch only in " ++ joinAnd names)) =
          some (joinAnd names)
        exact matchScoped_cons
          (show matchScopedAt (str "search only in " ++ joinAnd names) =
              some (joinAnd names) from
            matchScopedAt_search_only_in hcr hc hg)
    simp only [selectTools]
    rw [if_neg hinf, hms]
    dsimp only
    rw [hsplit]
    rw [List.map_congr_left (fun n hn => pyStrip_of_word (h n hn).2)]
    simp

/-- C3 counterexample: for the comma-separated directive
"search in confluence, graphql" (both names registered) the capture stops
at the comma, so the selection is only `confluence` — not the claimed
pair. -/
theorem C3_counterexample_comma_list :
    selectTools tools (str "search in confluence, graphql") none = [str "confluence"] ∧
    str "graphql" ∉ selectTools tools (str "search in confluence, graphql") none := by
  constructor
  · decide
  · decide

/-- C3 witness: a directive naming one registered and one unregistered
adapter selects exactly the registered one. -/
theorem C3_witness :
    selectTools tools
      (str "search " ++ (([] : List Char) ++
        (str "in " ++ joinAnd [str "postgresql", str "zzz"]))) none =
      [str "postgresql"] := by
  have h := C3_scoped_directive_amended.2 tools [str "postgresql", str "zzz"] none false
    (by decide) (by decide) (by decide)
  exact h.trans (by decide)
